import Mathlib

/-!
Verification of the text-analysis engine of `src/main.py` (Web-Article-Analyzer).

The Python source is shallowly embedded:
* Python strings are `List Char` (`Str`); `str.lower()` is `lower`,
  `str.isalpha()` is `pyIsAlpha`, `str.split()` (whitespace split discarding
  empty fields) is `pySplit`.
* The global `pronunciation_dict` (an optional external snapshot, loaded from
  `cmudict` or `{}`) is an explicit parameter of type `PDict`, an association
  list from a lower-cased word to its list of phonetic-transcription variants.
* The external `nltk.sent_tokenize` / `nltk.word_tokenize` collaborators are
  explicit function parameters of `analyze_article_text` — the spec (§1, §4.5)
  treats tokenization as an external interface, and every claim about the
  engine quantifies over the tokenizer's output.
* Real arithmetic is exact rational arithmetic (`ℚ`).  Python's fallible
  operations — division (`ZeroDivisionError`) and sequence indexing
  (`IndexError`, as in `pronunciation_dict[word][0]` and `sound[-1]`) — are
  embedded as `Option`-valued computations: `none` is a raised exception.
* Python's `round(x, 3)` is `round3`: rounding `1000·x` to an integer.  The
  reference rounds binary floats half-to-even; on exact rationals we use
  Mathlib's `round` (half-up).  No value appearing in the claims is a tie, so
  the difference is immaterial here, and only monotonicity and the fixing of
  integers are used in the proofs.
* The regular expression `\b(I|we|my|ours|us)\b` with `re.IGNORECASE` used by
  `re.findall` is modelled by `countPronouns`: it counts the positions at
  which one of the five alternatives matches case-insensitively, flanked by
  word boundaries.  Because each alternative consists solely of word
  characters and is flanked by `\b` on both sides, two matches can never
  overlap and no match can start strictly inside another, so this positional
  count coincides with `len(re.findall ...)`.
-/

namespace ArticleAnalyzer

abbrev Str := List Char

/-- A snapshot of the pronunciation dictionary: each key (a lower-cased word)
maps to the list of its phonetic-transcription variants, each variant a list
of phoneme symbols.  Keys are assumed distinct (Python `dict`). -/
abbrev PDict := List (Str × List (List Str))

/-- Python `str.lower()` (ASCII range, which covers every input appearing in
the claims). -/
def lower (w : Str) : Str := w.map Char.toLower

/-- Python `str.isalpha()`: non-empty and every character alphabetic. -/
def pyIsAlpha (w : Str) : Bool := !w.isEmpty && w.all Char.isAlpha

/-- The whitespace characters Python `str.split()` splits on. -/
def isPySpace (c : Char) : Bool :=
  c = ' ' || c = '\t' || c = '\n' || c = '\r' || c = '\x0b' || c = '\x0c'

/-- Splits a character list into the maximal runs of characters satisfying
`p`, dropping the separators.  `acc` is the (reversed) run currently being
read. -/
def splitRunsAux (p : Char → Bool) : List Char → List Char → List (List Char)
  | [], acc => if acc.isEmpty then [] else [acc.reverse]
  | c :: cs, acc =>
    if p c then splitRunsAux p cs (c :: acc)
    else if acc.isEmpty then splitRunsAux p cs []
    else acc.reverse :: splitRunsAux p cs []

/-- Maximal runs of characters satisfying `p`. -/
def splitRuns (p : Char → Bool) (cs : List Char) : List (List Char) :=
  splitRunsAux p cs []

/-- Python `text.split()`: whitespace-delimited fields, empty fields
discarded. -/
def pySplit (text : Str) : List Str :=
  splitRuns (fun c => !isPySpace c) text

/-- The `for word in words` filtering loop of `remove_stopwords_from_text`. -/
def remove_stopwords_loop (stopwords : List Str) : List Str → List Str
  | [] => []
  | w :: ws =>
    if stopwords.contains (lower w) then remove_stopwords_loop stopwords ws
    else w :: remove_stopwords_loop stopwords ws

/-- `remove_stopwords_from_text(text, stopwords)` of `src/main.py`: split on
whitespace, keep the words whose lower-cased form is not in `stopwords`,
re-join with single spaces. -/
def remove_stopwords_from_text (text : Str) (stopwords : List Str) : Str :=
  List.intercalate [' '] (remove_stopwords_loop stopwords (pySplit text))

/-- The vowel set of the fallback heuristic in `count_syllables`. -/
def vowels : Str := ['a', 'e', 'i', 'o', 'u', 'y']

/-- The heuristic counting loop of `count_syllables`: `prev` is the
`prev_was_vowel` flag. -/
def vowelLoop : Str → Bool → ℕ
  | [], _ => 0
  | c :: cs, prev =>
    if vowels.contains c then (if prev then 0 else 1) + vowelLoop cs true
    else vowelLoop cs false

/-- The last characters of a list of phoneme symbols (`sound[-1]` for each
`sound`); `none` models the `IndexError` raised on an empty symbol. -/
def phonemeLasts : List Str → Option (List Char)
  | [] => some []
  | ph :: phs => do
    let c ← ph.getLast?
    let rest ← phonemeLasts phs
    pure (c :: rest)

/-- `count_syllables(word)` of `src/main.py`, with the global
`pronunciation_dict` as an explicit parameter.  If the lower-cased word is a
key, Python evaluates `pronunciation_dict[word][0]` and then `sound[-1]` for
every phoneme of that first variant: an empty variant list or an empty
phoneme symbol raises `IndexError`, embedded as `none`.  Otherwise the vowel
run heuristic applies, floored at 1. -/
def count_syllables (pdict : PDict) (w : Str) : Option ℕ :=
  let word := lower w
  match List.lookup word pdict with
  | some [] => none
  | some (v :: _) => (phonemeLasts v).map (fun ls => ls.countP Char.isDigit)
  | none => some (max 1 (vowelLoop word false))

/-- The syllable-accumulation loop of `analyze_article_text`, collecting the
syllable count of each clean word in order; `none` propagates the first
exception raised by `count_syllables`. -/
def syllList (pdict : PDict) : List Str → Option (List ℕ)
  | [] => some []
  | w :: ws => do
    let s ← count_syllables pdict w
    let rest ← syllList pdict ws
    pure (s :: rest)

/-- Word character for the regex `\b` boundary (`\w`, ASCII range). -/
def isWordChar (c : Char) : Bool := c.isAlphanum || c = '_'

/-- The alternatives of `\b(I|we|my|ours|us)\b`, lower-cased, in order. -/
def pronounPatterns : List Str :=
  [['i'], ['w', 'e'], ['m', 'y'], ['o', 'u', 'r', 's'], ['u', 's']]

/-- Case-insensitively strips `pat` from the front of `cs`, returning the
rest of `cs` on success. -/
def matchLowerPat : Str → Str → Option Str
  | [], rest => some rest
  | _ :: _, [] => none
  | p :: ps, c :: cs => if c.toLower = p then matchLowerPat ps cs else none

/-- True when one of the pronoun alternatives matches at the head of `cs`
and the character following the match (if any) is not a word character (the
trailing `\b`). -/
def pronounAt (cs : Str) : Bool :=
  pronounPatterns.any (fun pat =>
    match matchLowerPat pat cs with
    | some [] => true
    | some (c :: _) => !isWordChar c
    | none => false)

/-- Scans the text position by position; `prev` is the character before the
current position, used for the leading `\b`. -/
def countPronounsFrom : Option Char → Str → ℕ
  | _, [] => 0
  | prev, c :: cs =>
    (if (match prev with | none => true | some p => !isWordChar p)
        && pronounAt (c :: cs) then 1 else 0)
      + countPronounsFrom (some c) cs

/-- `len(re.findall(r'...', text, re.IGNORECASE))` of `src/main.py` line 209
(see the module docstring for why the positional count is exact). -/
def countPronouns (text : Str) : ℕ := countPronounsFrom none text

/-- Python `round(x, 3)` on exact rationals (see module docstring). -/
def round3 (q : ℚ) : ℚ := (round (q * 1000) : ℤ) / 1000

/-- Python division `a / b`: `none` models `ZeroDivisionError`. -/
def qdiv (a b : ℚ) : Option ℚ := if b = 0 then none else some (a / b)

/-- The 13-field metric record returned by `analyze_article_text`
(spec §6).  Count fields are naturals, rounded fields exact rationals. -/
structure MetricRecord where
  positiveScore : ℕ
  negativeScore : ℕ
  polarityScore : ℚ
  subjectivityScore : ℚ
  avgSentenceLength : ℚ
  percentageComplexWords : ℚ
  fogIndex : ℚ
  avgWordsPerSentence : ℚ
  complexWordCount : ℕ
  wordCount : ℕ
  syllablePerWord : ℚ
  personalPronouns : ℕ
  avgWordLength : ℚ
  deriving Repr, DecidableEq

/-- The body of `analyze_article_text` after the zero-count guard: sentiment
counting, the guarded sentiment divisions, readability metrics, pronoun
count and averages, each division through `qdiv` and each syllable count
through `syllList`.  `none` models an uncaught exception. -/
def analyze_body (pdict : PDict) (text : Str) (clean_words sentences : List Str)
    (positive_words negative_words : List Str) : Option MetricRecord := do
  let word_count := clean_words.length
  let sentence_count := sentences.length
  let positive_count := clean_words.countP (fun w => positive_words.contains (lower w))
  let negative_count := clean_words.countP (fun w => negative_words.contains (lower w))
  let total_sentiment_words := positive_count + negative_count
  let ps ←
    if 0 < total_sentiment_words then do
      let pol ← qdiv ((positive_count : ℚ) - (negative_count : ℚ)) (total_sentiment_words : ℚ)
      let sub ← qdiv (total_sentiment_words : ℚ) (word_count : ℚ)
      pure (pol, sub)
    else
      pure ((0 : ℚ), (0 : ℚ))
  let avg_sentence_length ← qdiv (word_count : ℚ) (sentence_count : ℚ)
  let sylls ← syllList pdict clean_words
  let complex_word_count := sylls.countP (fun s => 2 < s)
  let total_syllables := sylls.sum
  let pc0 ← qdiv (complex_word_count : ℚ) (word_count : ℚ)
  let percentage_complex := pc0 * 100
  let fog_index := (2 / 5 : ℚ) * (avg_sentence_length + percentage_complex)
  let avg_syllables_per_word ← qdiv (total_syllables : ℚ) (word_count : ℚ)
  let personal_pronouns := countPronouns text
  let total_chars := (clean_words.map List.length).sum
  let avg_word_length ← qdiv (total_chars : ℚ) (word_count : ℚ)
  pure {
    positiveScore := positive_count
    negativeScore := negative_count
    polarityScore := round3 ps.1
    subjectivityScore := round3 ps.2
    avgSentenceLength := round3 avg_sentence_length
    percentageComplexWords := round3 percentage_complex
    fogIndex := round3 fog_index
    avgWordsPerSentence := round3 avg_sentence_length
    complexWordCount := complex_word_count
    wordCount := word_count
    syllablePerWord := round3 avg_syllables_per_word
    personalPronouns := personal_pronouns
    avgWordLength := round3 avg_word_length
  }

/-- `analyze_article_text(text, positive_words, negative_words)` of
`src/main.py`.  The external tokenizers are the parameters `st`
(`nltk.sent_tokenize`) and `wt` (`nltk.word_tokenize`), the global
pronunciation dictionary is `pdict`.  Result: `some none` is the `{}`
insufficient-content record, `some (some r)` a full record, `none` an
uncaught exception. -/
def analyze_article_text (pdict : PDict) (st wt : Str → List Str) (text : Str)
    (positive_words negative_words : List Str) : Option (Option MetricRecord) :=
  let sentences := st text
  let words := wt text
  let clean_words := words.filter pyIsAlpha
  if clean_words.length = 0 ∨ sentences.length = 0 then some none
  else (analyze_body pdict text clean_words sentences positive_words negative_words).map some

/-- The record `analyze_article_text` produces on a non-degenerate input,
described directly in terms of the basic counts: positive count `pc`,
negative count `nc`, clean word count `wc`, sentence count `sc`, complex
word count `cwc`, total syllables `tsyl`, personal pronouns `pp`, and total
characters of the clean words `tchars`. -/
def mkRecord (pc nc wc sc cwc tsyl pp tchars : ℕ) : MetricRecord :=
  { positiveScore := pc
    negativeScore := nc
    polarityScore :=
      round3 (if 0 < pc + nc then ((pc : ℚ) - (nc : ℚ)) / ((pc + nc : ℕ) : ℚ) else 0)
    subjectivityScore :=
      round3 (if 0 < pc + nc then ((pc + nc : ℕ) : ℚ) / (wc : ℚ) else 0)
    avgSentenceLength := round3 ((wc : ℚ) / (sc : ℚ))
    percentageComplexWords := round3 (((cwc : ℚ) / (wc : ℚ)) * 100)
    fogIndex := round3 ((2 / 5 : ℚ) * ((wc : ℚ) / (sc : ℚ) + ((cwc : ℚ) / (wc : ℚ)) * 100))
    avgWordsPerSentence := round3 ((wc : ℚ) / (sc : ℚ))
    complexWordCount := cwc
    wordCount := wc
    syllablePerWord := round3 ((tsyl : ℚ) / (wc : ℚ))
    personalPronouns := pp
    avgWordLength := round3 ((tchars : ℚ) / (wc : ℚ)) }

lemma analyze_body_eq (pdict : PDict) (text : Str) (clean sents pos neg : List Str)
    (sylls : List ℕ) (hw : clean.length ≠ 0) (hs : sents.length ≠ 0)
    (hsy : syllList pdict clean = some sylls) :
    analyze_body pdict text clean sents pos neg =
      some (mkRecord (clean.countP (fun w => pos.contains (lower w)))
        (clean.countP (fun w => neg.contains (lower w)))
        clean.length sents.length
        (sylls.countP (fun s => 2 < s)) sylls.sum
        (countPronouns text) ((clean.map List.length).sum)) := by
  have hwQ : ¬((clean.length : ℚ) = 0) := Nat.cast_ne_zero.mpr hw
  have hsQ : ¬((sents.length : ℚ) = 0) := Nat.cast_ne_zero.mpr hs
  by_cases ht : 0 < clean.countP (fun w => pos.contains (lower w)) +
      clean.countP (fun w => neg.contains (lower w))
  · have htQ : ¬((((clean.countP (fun w => pos.contains (lower w)) +
        clean.countP (fun w => neg.contains (lower w)) : ℕ)) : ℚ) = 0) :=
      Nat.cast_ne_zero.mpr (Nat.pos_iff_ne_zero.mp ht)
    simp only [analyze_body, mkRecord, qdiv, hsy, Option.pure_def, Option.bind_eq_bind', Option.some_bind,
      if_pos ht, if_neg htQ, if_neg hwQ, if_neg hsQ]
  · simp only [analyze_body, mkRecord, qdiv, hsy, Option.pure_def, Option.bind_eq_bind', Option.some_bind,
      if_neg ht, if_neg hwQ, if_neg hsQ]

lemma analyze_body_inv (pdict : PDict) (text : Str) (clean sents pos neg : List Str)
    (r : MetricRecord) (h : analyze_body pdict text clean sents pos neg = some r) :
    ∃ sylls, syllList pdict clean = some sylls ∧ clean.length ≠ 0 ∧ sents.length ≠ 0 ∧
      r = mkRecord (clean.countP (fun w => pos.contains (lower w)))
        (clean.countP (fun w => neg.contains (lower w)))
        clean.length sents.length
        (sylls.countP (fun s => 2 < s)) sylls.sum
        (countPronouns text) ((clean.map List.length).sum) := by
  rcases hsy : syllList pdict clean with _ | sylls
  · exfalso
    simp only [analyze_body, qdiv, hsy, Option.pure_def, Option.bind_eq_bind', Option.some_bind,
      Option.none_bind] at h
    split_ifs at h <;> simp_all
  · by_cases hs : sents.length = 0
    · exfalso
      have hsQ : ((sents.length : ℚ)) = 0 := by rw [hs]; norm_num
      simp only [analyze_body, qdiv, hsy, Option.pure_def, Option.bind_eq_bind', Option.some_bind,
        Option.none_bind, if_pos hsQ] at h
      split_ifs at h <;> simp_all
    · by_cases hw : clean.length = 0
      · exfalso
        have hwQ : ((clean.length : ℚ)) = 0 := by rw [hw]; norm_num
        simp only [analyze_body, qdiv, hsy, Option.pure_def, Option.bind_eq_bind', Option.some_bind,
          Option.none_bind, if_pos hwQ] at h
        split_ifs at h <;> simp_all
      · refine ⟨sylls, rfl, hw, hs, ?_⟩
        rw [analyze_body_eq pdict text clean sents pos neg sylls hw hs hsy] at h
        exact (Option.some_injective _ h).symm

lemma round3_mono {a b : ℚ} (h : a ≤ b) : round3 a ≤ round3 b := by
  unfold round3
  have h1 : round (a * 1000) ≤ round (b * 1000) := by
    rw [round_eq, round_eq]
    exact Int.floor_mono (by linarith)
  have h2 : ((round (a * 1000) : ℤ) : ℚ) ≤ ((round (b * 1000) : ℤ) : ℚ) :=
    Int.cast_le.mpr h1
  linarith

lemma round3_intCast (n : ℤ) : round3 ((n : ℚ)) = (n : ℚ) := by
  unfold round3
  rw [show ((n : ℚ) * 1000) = ((n * 1000 : ℤ) : ℚ) by push_cast; ring, round_intCast]
  push_cast
  field_simp

lemma round3_le {q : ℚ} {b : ℤ} (h : q ≤ (b : ℚ)) : round3 q ≤ (b : ℚ) :=
  round3_intCast b ▸ round3_mono h

lemma le_round3 {q : ℚ} {a : ℤ} (h : (a : ℚ) ≤ q) : (a : ℚ) ≤ round3 q :=
  round3_intCast a ▸ round3_mono h

lemma countP_add_le_length {α : Type} (p q : α → Bool) (l : List α)
    (h : ∀ a ∈ l, ¬(p a = true ∧ q a = true)) :
    l.countP p + l.countP q ≤ l.length := by
  induction l with
  | nil => simp
  | cons a l ih =>
    have ha := h a (by simp)
    have ih' := ih (fun x hx => h x (List.mem_cons_of_mem a hx))
    rw [List.countP_cons, List.countP_cons, List.length_cons]
    by_cases hp : p a = true <;> by_cases hq : q a = true
    · exact absurd ⟨hp, hq⟩ ha
    · simp only [if_pos hp, if_neg hq]; omega
    · simp only [if_neg hp, if_pos hq]; omega
    · simp only [if_neg hp, if_neg hq]; omega

lemma syllList_length (pdict : PDict) (ws : List Str) (l : List ℕ)
    (h : syllList pdict ws = some l) : l.length = ws.length := by
  induction ws generalizing l with
  | nil =>
    simp only [syllList, Option.some_inj] at h
    simp [← h]
  | cons w ws ih =>
    rw [syllList] at h
    rcases hc : count_syllables pdict w with _ | s <;> rw [hc] at h
    · simp at h
    · rcases hr : syllList pdict ws with _ | rest <;> rw [hr] at h
      · simp at h
      · simp only [Option.bind_eq_bind', Option.some_bind, Option.pure_def,
          Option.some_inj] at h
        rw [← h, List.length_cons, List.length_cons, ih rest hr]

lemma syllList_isSome (pdict : PDict) (ws : List Str)
    (h : ∀ w ∈ ws, (count_syllables pdict w).isSome = true) :
    ∃ l, syllList pdict ws = some l := by
  induction ws with
  | nil => exact ⟨[], rfl⟩
  | cons w ws ih =>
    rcases Option.isSome_iff_exists.mp (h w (List.mem_cons_self w ws)) with ⟨s, hs⟩
    rcases ih (fun x hx => h x (List.mem_cons_of_mem w hx)) with ⟨l, hl⟩
    exact ⟨s :: l, by rw [syllList, hs, hl]; rfl⟩

lemma analyze_eq_some (pdict : PDict) (st wt : Str → List Str) (text : Str)
    (pos neg : List Str) (r : MetricRecord)
    (h : analyze_article_text pdict st wt text pos neg = some (some r)) :
    ∃ sylls, syllList pdict ((wt text).filter pyIsAlpha) = some sylls ∧
      ((wt text).filter pyIsAlpha).length ≠ 0 ∧ (st text).length ≠ 0 ∧
      r = mkRecord
        (((wt text).filter pyIsAlpha).countP (fun w => pos.contains (lower w)))
        (((wt text).filter pyIsAlpha).countP (fun w => neg.contains (lower w)))
        ((wt text).filter pyIsAlpha).length (st text).length
        (sylls.countP (fun s => 2 < s)) sylls.sum
        (countPronouns text) ((((wt text).filter pyIsAlpha).map List.length).sum) := by
  rw [analyze_article_text] at h
  split_ifs at h with hg
  · simp at h
  · rcases Option.map_eq_some'.mp h with ⟨r', hr', he⟩
    rcases analyze_body_inv _ _ _ _ _ _ _ hr' with ⟨sylls, hsy, hw, hs, hmk⟩
    exact ⟨sylls, hsy, hw, hs, (Option.some_injective _ he) ▸ hmk⟩

/-- C2: for every input whose tokenization yields at least one sentence and
at least one alphabetic clean word (and on which the syllable estimator does
not raise, which holds e.g. for every snapshot without degenerate entries,
in particular the empty one), `analyze_article_text` produces a full
13-field record: every division it performs has a non-zero divisor thanks to
the zero-count short-circuit, so no undefined numeric state is reachable. -/
theorem C2_analyze_total_on_nondegenerate (pdict : PDict) (st wt : Str → List Str)
    (text : Str) (pos neg : List Str)
    (hw : (wt text).filter pyIsAlpha ≠ [])
    (hs : st text ≠ [])
    (hsyl : ∀ w ∈ (wt text).filter pyIsAlpha, (count_syllables pdict w).isSome = true) :
    ∃ r, analyze_article_text pdict st wt text pos neg = some (some r) := by
  rcases syllList_isSome pdict _ hsyl with ⟨l, hl⟩
  have hw' : ((wt text).filter pyIsAlpha).length ≠ 0 := by
    simpa [List.length_eq_zero] using hw
  have hs' : (st text).length ≠ 0 := by
    simpa [List.length_eq_zero] using hs
  refine ⟨mkRecord (((wt text).filter pyIsAlpha).countP (fun w => pos.contains (lower w)))
      (((wt text).filter pyIsAlpha).countP (fun w => neg.contains (lower w)))
      ((wt text).filter pyIsAlpha).length (st text).length
      (l.countP (fun s => 2 < s)) l.sum
      (countPronouns text) ((((wt text).filter pyIsAlpha).map List.length).sum), ?_⟩
  rw [analyze_article_text, if_neg (by push_neg; exact ⟨hw', hs'⟩),
    analyze_body_eq _ _ _ _ _ _ l hw' hs' hl]
  rfl

/-- Witness for C2 at a concrete non-degenerate input: one sentence, the
single clean word "a", the empty pronunciation dictionary. -/
theorem C2_analyze_total_on_nondegenerate_witness :
    ∃ r, analyze_article_text [] (fun _ => [['a']]) (fun _ => [['a']]) [] [] [] =
      some (some r) := by
  refine C2_analyze_total_on_nondegenerate [] (fun _ => [['a']]) (fun _ => [['a']]) [] [] []
    ?_ ?_ ?_ <;> decide

/-- C3: `analyze_article_text` returns the insufficient-content signal `{}`
(`some none` here — not an exception `none`, not a full record) exactly when
the tokenized input has zero sentences or zero clean words; in particular on
the empty string (for any tokenizer that yields no tokens on it) it returns
that signal, for every pair of lexicons. -/
theorem C3_insufficient_content_iff (pdict : PDict) (st wt : Str → List Str)
    (text : Str) (pos neg : List Str) :
    (analyze_article_text pdict st wt text pos neg = some none ↔
      ((wt text).filter pyIsAlpha = [] ∨ st text = [])) ∧
    (wt [] = [] → analyze_article_text pdict st wt [] pos neg = some none) := by
  constructor
  · rw [analyze_article_text]
    split_ifs with hg
    · simp only [true_iff]
      rcases hg with hg | hg
      · exact Or.inl (List.length_eq_zero.mp hg)
      · exact Or.inr (List.length_eq_zero.mp hg)
    · push_neg at hg
      constructor
      · intro h
        rcases ho : analyze_body pdict text ((wt text).filter pyIsAlpha) (st text) pos neg with
          _ | r <;> rw [ho] at h <;> simp at h
      · rintro (h | h)
        · exact absurd (by rw [h]; rfl) hg.1
        · exact absurd (by rw [h]; rfl) hg.2
  · intro hempty
    rw [analyze_article_text, hempty]
    simp

/-- Witness for C3 at a concrete input: a tokenizer pair that yields no
tokens on the empty string. -/
theorem C3_insufficient_content_iff_witness :
    analyze_article_text [] (fun _ => []) (fun _ => []) [] [] [] = some none :=
  (C3_insufficient_content_iff [] (fun _ => []) (fun _ => []) [] [] []).2 rfl

def lov : Str := ['l', 'o', 'v', 'e']

lemma analyze_lov_eq :
    analyze_article_text [] (fun _ => [lov]) (fun _ => [lov]) lov [lov] [lov] =
      some (some (mkRecord 1 1 1 1 0 2 0 4)) := by
  simp only [analyze_article_text]
  rw [if_neg (by decide),
    analyze_body_eq [] lov ([lov].filter pyIsAlpha) [lov] [lov] [lov] [2]
      (by decide) (by decide) (by decide)]
  rw [show ([lov].filter pyIsAlpha).countP (fun w => [lov].contains (lower w)) = 1 from by decide,
    show ([lov].filter pyIsAlpha).length = 1 from by decide,
    show List.length [lov] = 1 from by decide,
    show List.countP (fun s => 2 < s) [2] = 0 from by decide,
    show List.sum [2] = 2 from by decide,
    show countPronouns lov = 0 from by decide,
    show (([lov].filter pyIsAlpha).map List.length).sum = 4 from by decide]
  rfl

/-- C1 as stated is false on the code: the claim asserts
`POSITIVE SCORE + NEGATIVE SCORE <= WORD COUNT` and `subjectivity <= 1` for
arbitrary lexicons, "disjoint or not".  With the overlapping lexicons
positive = negative = {"love"} and a tokenization of the one-word text
"love" into one sentence and one clean word, the produced record has
POSITIVE SCORE + NEGATIVE SCORE = 2 > 1 = WORD COUNT and
SUBJECTIVITY SCORE = 2 > 1. -/
theorem C1_counterexample :
    (analyze_article_text [] (fun _ => [lov]) (fun _ => [lov]) lov [lov] [lov]).map
        (Option.map (fun r =>
          (r.positiveScore, r.negativeScore, r.wordCount, r.subjectivityScore))) =
      some (some (1, 1, 1, 2)) ∧ ¬(1 + 1 ≤ 1) ∧ ¬((2 : ℚ) ≤ 1) := by
  refine ⟨?_, by norm_num, by norm_num⟩
  rw [analyze_lov_eq]
  simp only [Option.map_some', mkRecord]
  norm_num [round3, round_eq]

/-- C1, amended (the amendment only adds the disjointness of the two
lexicons as a hypothesis of the two conjuncts the counterexample refutes):
for every non-degenerate input, `COMPLEX WORD COUNT <= WORD COUNT`,
`0 <= percentageComplex <= 100`, and whenever
`totalSentimentWords > 0`, `-1 <= polarity <= 1` and `0 <= subjectivity`;
and for DISJOINT positive/negative lexicons additionally
`POSITIVE SCORE + NEGATIVE SCORE <= WORD COUNT` and `subjectivity <= 1`. -/
theorem C1_amended_record_invariants (pdict : PDict) (st wt : Str → List Str)
    (text : Str) (pos neg : List Str) (r : MetricRecord)
    (h : analyze_article_text pdict st wt text pos neg = some (some r)) :
    r.complexWordCount ≤ r.wordCount ∧
    (0 ≤ r.percentageComplexWords ∧ r.percentageComplexWords ≤ 100) ∧
    (0 < r.positiveScore + r.negativeScore →
      -1 ≤ r.polarityScore ∧ r.polarityScore ≤ 1 ∧ 0 ≤ r.subjectivityScore) ∧
    ((∀ w : Str, pos.contains w = true → neg.contains w = false) →
      r.positiveScore + r.negativeScore ≤ r.wordCount ∧ r.subjectivityScore ≤ 1) := by
  rcases analyze_eq_some pdict st wt text pos neg r h with ⟨sylls, hsy, hw, hs, hr⟩
  have hlen : sylls.length = ((wt text).filter pyIsAlpha).length :=
    syllList_length pdict _ sylls hsy
  have hcwc : sylls.countP (fun s => 2 < s) ≤ ((wt text).filter pyIsAlpha).length :=
    hlen ▸ List.countP_le_length _
  subst hr
  simp only [mkRecord]
  set clean := (wt text).filter pyIsAlpha with hclean
  set pc := clean.countP (fun w => pos.contains (lower w)) with hpc
  set nc := clean.countP (fun w => neg.contains (lower w)) with hnc
  set cwc := sylls.countP (fun s => 2 < s) with hcwcd
  have hwcQ : (0 : ℚ) < (clean.length : ℚ) := by
    exact_mod_cast Nat.pos_of_ne_zero hw
  refine ⟨hcwc, ⟨?_, ?_⟩, ?_, ?_⟩
  · have h0 : (0 : ℚ) ≤ (cwc : ℚ) / (clean.length : ℚ) * 100 := by positivity
    have := le_round3 (a := 0) (by exact_mod_cast h0)
    exact_mod_cast this
  · have h1 : (cwc : ℚ) / (clean.length : ℚ) * 100 ≤ ((100 : ℤ) : ℚ) := by
      have : (cwc : ℚ) / (clean.length : ℚ) ≤ 1 := by
        rw [div_le_one hwcQ]
        exact_mod_cast hcwc
      push_cast
      nlinarith
    have := round3_le h1
    exact_mod_cast this
  · intro ht
    rw [if_pos ht, if_pos ht]
    have htQ : (0 : ℚ) < ((pc + nc : ℕ) : ℚ) := by exact_mod_cast ht
    refine ⟨?_, ?_, ?_⟩
    · have h1 : ((-1 : ℤ) : ℚ) ≤ ((pc : ℚ) - (nc : ℚ)) / ((pc + nc : ℕ) : ℚ) := by
        rw [le_div_iff htQ]
        push_cast
        have : (0 : ℚ) ≤ (pc : ℚ) := by positivity
        nlinarith [Nat.cast_nonneg (α := ℚ) pc, Nat.cast_nonneg (α := ℚ) nc]
      have := le_round3 h1
      exact_mod_cast this
    · have h1 : ((pc : ℚ) - (nc : ℚ)) / ((pc + nc : ℕ) : ℚ) ≤ ((1 : ℤ) : ℚ) := by
        rw [div_le_iff htQ]
        push_cast
        nlinarith [Nat.cast_nonneg (α := ℚ) pc, Nat.cast_nonneg (α := ℚ) nc]
      have := round3_le h1
      exact_mod_cast this
    · have h1 : ((0 : ℤ) : ℚ) ≤ ((pc + nc : ℕ) : ℚ) / (clean.length : ℚ) := by
        positivity
      have := le_round3 h1
      exact_mod_cast this
  · intro hdisj
    have hsum : pc + nc ≤ clean.length := by
      refine countP_add_le_length _ _ clean (fun a _ => ?_)
      rintro ⟨h1, h2⟩
      rw [hdisj (lower a) h1] at h2
      exact Bool.false_ne_true h2
    refine ⟨hsum, ?_⟩
    by_cases ht : 0 < pc + nc
    · rw [if_pos ht]
      have h1 : ((pc + nc : ℕ) : ℚ) / (clean.length : ℚ) ≤ ((1 : ℤ) : ℚ) := by
        push_cast
        rw [div_le_one hwcQ]
        exact_mod_cast hsum
      have := round3_le h1
      exact_mod_cast this
    · rw [if_neg ht]
      have := round3_intCast 0
      norm_num at this
      rw [this]
      norm_num

def aWord : Str := ['a']

def rA : MetricRecord := mkRecord 0 0 1 1 0 1 0 1

lemma analyze_aWord_eq :
    analyze_article_text [] (fun _ => [aWord]) (fun _ => [aWord]) [] [] [] =
      some (some rA) := by
  simp only [analyze_article_text, rA]
  rw [if_neg (by decide),
    analyze_body_eq [] [] ([aWord].filter pyIsAlpha) [aWord] [] [] [1]
      (by decide) (by decide) (by decide)]
  rw [show ([aWord].filter pyIsAlpha).countP (fun w => List.contains [] (lower w)) = 0 from by decide,
    show ([aWord].filter pyIsAlpha).length = 1 from by decide,
    show List.length [aWord] = 1 from by decide,
    show List.countP (fun s => 2 < s) [1] = 0 from by decide,
    show List.sum [1] = 1 from by decide,
    show countPronouns [] = 0 from by decide,
    show (([aWord].filter pyIsAlpha).map List.length).sum = 1 from by decide]
  rfl

/-- Witness for C1 (amended) at a concrete input: the one-word document "a"
with empty (hence disjoint) lexicons. -/
theorem C1_amended_record_invariants_witness :
    rA.complexWordCount ≤ rA.wordCount ∧
    (0 ≤ rA.percentageComplexWords ∧ rA.percentageComplexWords ≤ 100) ∧
    (0 < rA.positiveScore + rA.negativeScore →
      -1 ≤ rA.polarityScore ∧ rA.polarityScore ≤ 1 ∧ 0 ≤ rA.subjectivityScore) ∧
    ((∀ w : Str, List.contains [] w = true → List.contains [] w = false) →
      rA.positiveScore + rA.negativeScore ≤ rA.wordCount ∧ rA.subjectivityScore ≤ 1) :=
  C1_amended_record_invariants [] (fun _ => [aWord]) (fun _ => [aWord]) [] [] [] rA
    analyze_aWord_eq

lemma remove_stopwords_loop_eq_filter (S : List Str) (ws : List Str) :
    remove_stopwords_loop S ws = ws.filter (fun w => !(S.contains (lower w))) := by
  induction ws with
  | nil => rfl
  | cons w ws ih =>
    rw [remove_stopwords_loop, List.filter_cons]
    by_cases h : S.contains (lower w)
    · simp [h, ih]
    · simp [h, ih]

/-- The stopword remover as spec §4.3 words it: split the text on
whitespace, drop a token iff its lower-cased form is a member of the
stopword set, and re-join the surviving tokens with single spaces in their
original order.  Written from the spec, to be compared against the source
translation `remove_stopwords_from_text`. -/
def removeStopwordsSpec (text : Str) (stopwords : List Str) : Str :=
  List.intercalate [' ']
    ((pySplit text).filter (fun w => !(stopwords.contains (lower w))))

/-- C7: `remove_stopwords_from_text` splits on whitespace, drops a token iff
its lower-cased form is in the stopword set, and rejoins the survivors with
single spaces in order (the spec-side description `removeStopwordsSpec`);
moreover a token survives iff it occurred and its lower-cased form is not a
member. -/
theorem C7_remove_stopwords_spec (text : Str) (S : List Str) :
    remove_stopwords_from_text text S = removeStopwordsSpec text S ∧
    (∀ w : Str, w ∈ remove_stopwords_loop S (pySplit text) ↔
      (w ∈ pySplit text ∧ ¬(lower w ∈ S))) := by
  constructor
  · rw [remove_stopwords_from_text, removeStopwordsSpec, remove_stopwords_loop_eq_filter]
  · intro w
    rw [remove_stopwords_loop_eq_filter, List.mem_filter]
    simp

lemma splitRunsAux_mem (p : Char → Bool) :
    ∀ (cs acc : List Char), (∀ c ∈ acc, p c = true) →
      ∀ w ∈ splitRunsAux p cs acc, w ≠ [] ∧ ∀ c ∈ w, p c = true := by
  intro cs
  induction cs with
  | nil =>
    intro acc hacc w hw
    rw [splitRunsAux] at hw
    by_cases h : acc.isEmpty
    · rw [if_pos h] at hw
      cases hw
    · rw [if_neg h] at hw
      rcases List.mem_singleton.mp hw with rfl
      refine ⟨?_, ?_⟩
      · simp only [ne_eq, List.reverse_eq_nil_iff]
        intro hnil
        rw [hnil] at h
        exact h rfl
      · intro c hc
        exact hacc c (List.mem_reverse.mp hc)
  | cons c cs ih =>
    intro acc hacc w hw
    rw [splitRunsAux] at hw
    by_cases hp : p c
    · rw [if_pos hp] at hw
      refine ih (c :: acc) ?_ w hw
      intro x hx
      rcases List.mem_cons.mp hx with rfl | hx
      · exact hp
      · exact hacc x hx
    · rw [if_neg hp] at hw
      by_cases h : acc.isEmpty
      · rw [if_pos h] at hw
        exact ih [] (by simp) w hw
      · rw [if_neg h] at hw
        rcases List.mem_cons.mp hw with rfl | hw
        · refine ⟨?_, ?_⟩
          · simp only [ne_eq, List.reverse_eq_nil_iff]
            intro hnil
            rw [hnil] at h
            exact h rfl
          · intro x hx
            exact hacc x (List.mem_reverse.mp hx)
        · exact ih [] (by simp) w hw

lemma splitRuns_mem (p : Char → Bool) (cs : List Char) :
    ∀ w ∈ splitRuns p cs, w ≠ [] ∧ ∀ c ∈ w, p c = true :=
  splitRunsAux_mem p cs [] (by simp)

lemma splitRunsAux_append_sat (p : Char → Bool) :
    ∀ (t cs acc : List Char), (∀ c ∈ t, p c = true) →
      splitRunsAux p (t ++ cs) acc = splitRunsAux p cs (t.reverse ++ acc) := by
  intro t
  induction t with
  | nil => simp
  | cons c t ih =>
    intro cs acc ht
    rw [List.cons_append, splitRunsAux, if_pos (ht c (List.mem_cons_self _ _)),
      ih cs (c :: acc) (fun x hx => ht x (List.mem_cons_of_mem _ hx))]
    simp

lemma intercalate_cons_cons (sep : List Char) (a b : Str) (l : List Str) :
    List.intercalate sep (a :: b :: l) = a ++ sep ++ List.intercalate sep (b :: l) := by
  simp [List.intercalate]

lemma splitRuns_intercalate (p : Char → Bool) (sep : Char) (hsep : p sep = false) :
    ∀ ts : List Str, (∀ t ∈ ts, t ≠ [] ∧ ∀ c ∈ t, p c = true) →
      splitRuns p (List.intercalate [sep] ts) = ts := by
  intro ts
  induction ts with
  | nil => intro _; rfl
  | cons t ts ih =>
    intro h
    rcases h t (List.mem_cons_self _ _) with ⟨ht0, htp⟩
    have hrev : (t.reverse).isEmpty = false := by
      rcases t with _ | ⟨x, xs⟩
      · exact absurd rfl ht0
      · simp
    cases ts with
    | nil =>
      rw [show List.intercalate [sep] [t] = t by simp [List.intercalate]]
      rw [splitRuns, show t = t ++ ([] : List Char) by simp,
        splitRunsAux_append_sat p t [] [] htp]
      rw [List.append_nil, splitRunsAux, if_neg (by simp [hrev]), List.reverse_reverse]
      simp
    | cons t' ts' =>
      rw [intercalate_cons_cons]
      rw [List.append_assoc, show ([sep] ++ List.intercalate [sep] (t' :: ts')) =
        sep :: List.intercalate [sep] (t' :: ts') from rfl]
      rw [splitRuns, splitRunsAux_append_sat p t _ [] htp, List.append_nil]
      rw [splitRunsAux, if_neg (by simp [hsep]), if_neg (by simp [hrev]),
        List.reverse_reverse]
      exact congrArg (t :: ·) (ih (fun x hx => h x (List.mem_cons_of_mem _ hx)))

/-- C8: the stopword remover is idempotent:
`removeStopwords(removeStopwords(t, S), S) = removeStopwords(t, S)`. -/
theorem C8_remove_stopwords_idempotent (text : Str) (S : List Str) :
    remove_stopwords_from_text (remove_stopwords_from_text text S) S =
      remove_stopwords_from_text text S := by
  rw [remove_stopwords_from_text, remove_stopwords_from_text,
    remove_stopwords_loop_eq_filter, remove_stopwords_loop_eq_filter]
  have hmem : ∀ t ∈ (pySplit text).filter (fun w => !(S.contains (lower w))),
      t ≠ [] ∧ ∀ c ∈ t, (fun c => !isPySpace c) c = true := by
    intro t ht
    exact splitRuns_mem _ text t (List.mem_of_mem_filter ht)
  have hsplit : pySplit (List.intercalate [' ']
      ((pySplit text).filter (fun w => !(S.contains (lower w))))) =
      (pySplit text).filter (fun w => !(S.contains (lower w))) :=
    splitRuns_intercalate _ ' ' (by decide) _ hmem
  rw [hsplit, List.filter_eq_self.mpr (fun a ha => (List.mem_filter.mp ha).2)]

lemma splitRunsAux_vowel_length :
    ∀ (cs acc : List Char),
      (splitRunsAux (fun c => vowels.contains c) cs acc).length =
        (if acc.isEmpty then 0 else 1) + vowelLoop cs (!acc.isEmpty) := by
  intro cs
  induction cs with
  | nil =>
    intro acc
    by_cases h : acc.isEmpty <;> simp [splitRunsAux, vowelLoop, h]
  | cons c cs ih =>
    intro acc
    rw [splitRunsAux, vowelLoop]
    by_cases hv : vowels.contains c
    · rw [if_pos hv, if_pos hv, ih]
      by_cases h : acc.isEmpty <;> simp [h]
    · rw [if_neg hv, if_neg hv]
      by_cases h : acc.isEmpty
      · rw [if_pos h, ih]
        simp [h]
      · rw [if_neg h, List.length_cons, ih]
        simp [h]
        omega

/-- The heuristic loop of `count_syllables` counts exactly the maximal runs
of consecutive vowel characters (spec §4.4 step 3). -/
lemma vowelLoop_eq_runs (cs : List Char) :
    vowelLoop cs false = (splitRuns (fun c => vowels.contains c) cs).length := by
  rw [splitRuns, splitRunsAux_vowel_length]
  simp

lemma phonemeLasts_eq (v : List Str) (hv : ∀ ph ∈ v, ph ≠ []) :
    ∃ ls, phonemeLasts v = some ls ∧
      ls.countP Char.isDigit = v.countP (fun ph =>
        match ph.getLast? with
        | some c => c.isDigit
        | none => false) := by
  induction v with
  | nil => exact ⟨[], rfl, rfl⟩
  | cons ph phs ih =>
    rcases ih (fun x hx => hv x (List.mem_cons_of_mem _ hx)) with ⟨ls, hls, hcount⟩
    have hph : ph ≠ [] := hv ph (List.mem_cons_self _ _)
    obtain ⟨c, hc⟩ : ∃ c, ph.getLast? = some c :=
      ⟨ph.getLast hph, List.getLast?_eq_getLast ph hph⟩
    refine ⟨c :: ls, ?_, ?_⟩
    · rw [phonemeLasts, hc, hls]
      rfl
    · rw [List.countP_cons, List.countP_cons, hcount]
      simp [hc]

/-- C4 as stated is false on the code: the dictionary path has no floor of
1.  With a snapshot whose entry for "a" has the single variant `["X"]` (no
phoneme ending in a digit), the estimator returns 0. -/
theorem C4_counterexample :
    count_syllables [(['a'], [[['X']]])] ['a'] = some 0 ∧ ¬(1 ≤ 0) := by
  exact ⟨by decide, by decide⟩

/-- C4, amended (the amendment restricts the quantifier over snapshots to
those in which the word is not a key — in particular the empty snapshot —
as the counterexample forces): for every word, including words with no
vowel characters, the heuristic path returns a defined count of at least
1. -/
theorem C4_amended_syllables_floor (pdict : PDict) (w : Str)
    (h : List.lookup (lower w) pdict = none) :
    (count_syllables pdict w).isSome = true ∧
    ∀ n, count_syllables pdict w = some n → 1 ≤ n := by
  simp only [count_syllables, h]
  refine ⟨rfl, ?_⟩
  intro n hn
  have h1 : max 1 (vowelLoop (lower w) false) = n := Option.some_inj.mp hn
  omega

/-- Witness for C4 (amended) at the vowel-free word "bcd" and the empty
snapshot. -/
theorem C4_amended_syllables_floor_witness :
    (count_syllables [] ['b', 'c', 'd']).isSome = true ∧
    (∀ n, count_syllables [] ['b', 'c', 'd'] = some n → 1 ≤ n) :=
  C4_amended_syllables_floor [] ['b', 'c', 'd'] (by decide)

/-- C5: the syllable estimator follows the specified algorithm on the
lower-cased word: for a dictionary key, the number of phonemes of the first
variant whose final character is a digit; otherwise the number of maximal
runs of consecutive vowel characters, floored at 1; and on the empty
snapshot `syllables "cat" = 1` and `syllables "happy" = 2`. -/
theorem C5_syllable_algorithm :
    (∀ (pdict : PDict) (w : Str) (v : List Str) (rest : List (List Str)),
      List.lookup (lower w) pdict = some (v :: rest) → (∀ ph ∈ v, ph ≠ []) →
      count_syllables pdict w = some (v.countP (fun ph =>
        match ph.getLast? with
        | some c => c.isDigit
        | none => false))) ∧
    (∀ (pdict : PDict) (w : Str), List.lookup (lower w) pdict = none →
      count_syllables pdict w =
        some (max 1 (splitRuns (fun c => vowels.contains c) (lower w)).length)) ∧
    count_syllables [] ['c', 'a', 't'] = some 1 ∧
    count_syllables [] ['h', 'a', 'p', 'p', 'y'] = some 2 := by
  refine ⟨?_, ?_, by decide, by decide⟩
  · intro pdict w v rest hl hv
    rcases phonemeLasts_eq v hv with ⟨ls, hls, hcount⟩
    simp only [count_syllables, hl, hls, Option.map_some']
    exact congrArg some hcount
  · intro pdict w hl
    simp only [count_syllables, hl, vowelLoop_eq_runs]

/-- Witness for C5: the dictionary path at a snapshot carrying
cat ↦ [K, AE1, T] (one stressed phoneme), and the heuristic path at the
word "b" with the empty snapshot. -/
theorem C5_syllable_algorithm_witness :
    count_syllables [(['c', 'a', 't'], [[['K'], ['A', 'E', '1'], ['T']]])] ['c', 'a', 't'] =
      some (([['K'], ['A', 'E', '1'], ['T']] : List Str).countP (fun ph =>
        match ph.getLast? with
        | some c => c.isDigit
        | none => false)) ∧
    count_syllables [] ['b'] =
      some (max 1 (splitRuns (fun c => vowels.contains c) (lower ['b'])).length) := by
  constructor
  · exact C5_syllable_algorithm.1 _ ['c', 'a', 't'] _ [] (by decide) (by decide)
  · exact C5_syllable_algorithm.2.1 [] ['b'] (by decide)

def catW : Str := ['c', 'a', 't']

def potatoW : Str := ['p', 'o', 't', 'a', 't', 'o']

/-- Ten clean words, three of which ("potato", 3 vowel runs) are complex. -/
def tenWords : List Str := List.replicate 7 catW ++ List.replicate 3 potatoW

def twoSents : List Str := [['a'], ['b']]

def rTen : MetricRecord := mkRecord 0 0 10 2 3 16 0 39

lemma analyze_ten_eq :
    analyze_article_text [] (fun _ => twoSents) (fun _ => tenWords) [] [] [] =
      some (some rTen) := by
  simp only [analyze_article_text, rTen]
  rw [if_neg (by decide),
    analyze_body_eq [] [] (tenWords.filter pyIsAlpha) twoSents [] []
      [1, 1, 1, 1, 1, 1, 1, 3, 3, 3] (by decide) (by decide) (by decide)]
  rw [show (tenWords.filter pyIsAlpha).countP
        (fun w => List.contains [] (lower w)) = 0 from by decide,
    show (tenWords.filter pyIsAlpha).length = 10 from by decide,
    show twoSents.length = 2 from by decide,
    show List.countP (fun s => 2 < s) [1, 1, 1, 1, 1, 1, 1, 3, 3, 3] = 3 from by decide,
    show List.sum [1, 1, 1, 1, 1, 1, 1, 3, 3, 3] = 16 from by decide,
    show countPronouns [] = 0 from by decide,
    show ((tenWords.filter pyIsAlpha).map List.length).sum = 39 from by decide]
  rfl

/-- C6: on every non-degenerate input the record's average sentence length
is the real (non-truncating) quotient `wordCount / sentenceCount`, its
complex-word percentage is `100 * complexWordCount / wordCount`, and its
fog index is `0.4 * (avgSentenceLength + percentageComplex)` (each rounded
to 3 decimals as the code does); and a concrete input with 2 sentences, 10
clean words and 3 complex words yields exactly 5.0, 30.0 and 14.0. -/
theorem C6_readability_formulas :
    (∀ (pdict : PDict) (st wt : Str → List Str) (text : Str) (pos neg : List Str)
        (r : MetricRecord),
      analyze_article_text pdict st wt text pos neg = some (some r) →
        r.avgSentenceLength = round3 ((r.wordCount : ℚ) / ((st text).length : ℚ)) ∧
        r.percentageComplexWords =
          round3 (100 * (r.complexWordCount : ℚ) / (r.wordCount : ℚ)) ∧
        r.fogIndex = round3 ((2 / 5 : ℚ) *
          ((r.wordCount : ℚ) / ((st text).length : ℚ) +
            100 * (r.complexWordCount : ℚ) / (r.wordCount : ℚ)))) ∧
    (analyze_article_text [] (fun _ => twoSents) (fun _ => tenWords) [] [] []).map
        (Option.map (fun r =>
          (r.avgSentenceLength, r.percentageComplexWords, r.fogIndex))) =
      some (some (5, 30, 14)) := by
  constructor
  · intro pdict st wt text pos neg r h
    rcases analyze_eq_some pdict st wt text pos neg r h with ⟨sylls, _, _, _, hr⟩
    subst hr
    refine ⟨by simp [mkRecord], ?_, ?_⟩
    · simp only [mkRecord]
      exact congrArg round3 (by ring)
    · simp only [mkRecord]
      exact congrArg round3 (by ring)
  · rw [analyze_ten_eq]
    simp only [Option.map_some', rTen, mkRecord]
    norm_num [round3, round_eq]

/-- Witness for C6's general formulas at the concrete 2-sentence, 10-word,
3-complex-word input. -/
theorem C6_readability_formulas_witness :
    rTen.avgSentenceLength = round3 ((rTen.wordCount : ℚ) / (twoSents.length : ℚ)) ∧
    rTen.percentageComplexWords =
      round3 (100 * (rTen.complexWordCount : ℚ) / (rTen.wordCount : ℚ)) ∧
    rTen.fogIndex = round3 ((2 / 5 : ℚ) *
      ((rTen.wordCount : ℚ) / (twoSents.length : ℚ) +
        100 * (rTen.complexWordCount : ℚ) / (rTen.wordCount : ℚ))) :=
  C6_readability_formulas.1 [] (fun _ => twoSents) (fun _ => tenWords) [] [] [] rTen
    analyze_ten_eq

/-- The text "I love this and we love that". -/
def loveTxt : Str :=
  ['I', ' ', 'l', 'o', 'v', 'e', ' ', 't', 'h', 'i', 's', ' ', 'a', 'n', 'd',
   ' ', 'w', 'e', ' ', 'l', 'o', 'v', 'e', ' ', 't', 'h', 'a', 't']

/-- Its standard word tokenization. -/
def loveWords : List Str :=
  [['I'], lov, ['t', 'h', 'i', 's'], ['a', 'n', 'd'], ['w', 'e'], lov,
   ['t', 'h', 'a', 't']]

def rLove : MetricRecord := mkRecord 2 0 7 1 0 9 2 22

lemma analyze_love_eq :
    analyze_article_text [] (fun _ => [loveTxt]) (fun _ => loveWords) loveTxt [lov] [] =
      some (some rLove) := by
  simp only [analyze_article_text, rLove]
  rw [if_neg (by decide),
    analyze_body_eq [] loveTxt (loveWords.filter pyIsAlpha) [loveTxt] [lov] []
      [1, 2, 1, 1, 1, 2, 1] (by decide) (by decide) (by decide)]
  rw [show (loveWords.filter pyIsAlpha).countP
        (fun w => List.contains [lov] (lower w)) = 2 from by decide,
    show (loveWords.filter pyIsAlpha).countP
        (fun w => List.contains [] (lower w)) = 0 from by decide,
    show (loveWords.filter pyIsAlpha).length = 7 from by decide,
    show List.length [loveTxt] = 1 from by decide,
    show List.countP (fun s => 2 < s) [1, 2, 1, 1, 1, 2, 1] = 0 from by decide,
    show List.sum [1, 2, 1, 1, 1, 2, 1] = 9 from by decide,
    show countPronouns loveTxt = 2 from by decide,
    show ((loveWords.filter pyIsAlpha).map List.length).sum = 22 from by decide]
  rfl

/-- C9: the PERSONAL PRONOUNS field is the count of case-insensitive
whole-word matches of {I, we, my, ours, us} in the whole text passed to
`analyze_article_text` (not just in the clean words — `countPronouns` scans
every position of the raw text, so punctuation-adjacent pronouns count,
while pronoun letters embedded in longer words do not); and on
"I love this and we love that" with positive lexicon {"love"} the record
has positiveScore = 2 and personalPronouns = 2. -/
theorem C9_personal_pronouns :
    (∀ (pdict : PDict) (st wt : Str → List Str) (text : Str) (pos neg : List Str)
        (r : MetricRecord),
      analyze_article_text pdict st wt text pos neg = some (some r) →
        r.personalPronouns = countPronouns text) ∧
    countPronouns ['u', 's', '.'] = 1 ∧
    countPronouns ['m', 'y', 's', 'e', 'l', 'f'] = 0 ∧
    countPronouns ['M', 'y', ' ', 'W', 'E', ' ', 'i'] = 3 ∧
    (analyze_article_text [] (fun _ => [loveTxt]) (fun _ => loveWords) loveTxt
        [lov] []).map (Option.map (fun r => (r.positiveScore, r.personalPronouns))) =
      some (some (2, 2)) := by
  refine ⟨?_, by decide, by decide, by decide, ?_⟩
  · intro pdict st wt text pos neg r h
    rcases analyze_eq_some pdict st wt text pos neg r h with ⟨sylls, _, _, _, hr⟩
    subst hr
    rfl
  · rw [analyze_love_eq]
    rfl

/-- Witness for C9's general part at the concrete "I love this and we love
that" input. -/
theorem C9_personal_pronouns_witness :
    rLove.personalPronouns = countPronouns loveTxt :=
  C9_personal_pronouns.1 [] (fun _ => [loveTxt]) (fun _ => loveWords) loveTxt [lov] []
    rLove analyze_love_eq

lemma uint32_le_iff_toNat_le (a b : UInt32) : a ≤ b ↔ a.toNat ≤ b.toNat := by
  rw [UInt32.le_def, BitVec.le_def]
  exact Iff.rfl

lemma isUpper_iff_toNat (c : Char) : c.isUpper = true ↔ 65 ≤ c.toNat ∧ c.toNat ≤ 90 := by
  rw [Char.isUpper, Bool.and_eq_true, decide_eq_true_eq, decide_eq_true_eq,
    ge_iff_le, uint32_le_iff_toNat_le, uint32_le_iff_toNat_le]
  exact Iff.rfl

/-- `Char.toLower` never produces an (ASCII) uppercase character. -/
lemma toLower_isUpper_eq_false (c : Char) : (Char.toLower c).isUpper = false := by
  rw [Char.toLower]
  by_cases h : c.toNat ≥ 65 ∧ c.toNat ≤ 90
  · rw [if_pos h]
    have hval : (Char.ofNat (c.toNat + 32)).toNat = c.toNat + 32 := by
      rw [Char.ofNat, dif_pos (Or.inl (by omega))]
      rfl
    rw [Bool.eq_false_iff]
    intro hu
    have := (isUpper_iff_toNat _).mp hu
    rw [hval] at this
    omega
  · rw [if_neg h, Bool.eq_false_iff]
    intro hu
    exact h ((isUpper_iff_toNat c).mp hu)

/-- A lower-cased token never contains an uppercase character, hence never
equals a stopword entry that does. -/
lemma lower_ne_of_upper (e : Str) (c : Char) (hc : c ∈ e) (hcu : c.isUpper = true) :
    ∀ w : Str, lower w ≠ e := by
  intro w hw
  rw [← hw] at hc
  rcases List.mem_map.mp hc with ⟨c', _, hcc⟩
  rw [← hcc, toLower_isUpper_eq_false c'] at hcu
  exact Bool.false_ne_true hcu

/-- C10: stopword matching is one-sidedly case-normalized.  The remover
lower-cases each token and compares against the entries by exact equality,
so an entry containing an (ASCII) uppercase character matches no token:
removing it from the stopword set never changes the output, and occurrences
of that word survive unless its fully lower-cased form is separately in the
set (the survival condition depends only on the remaining entries). -/
theorem C10_uppercase_stopwords_inert (text : Str) (S : List Str) (e : Str)
    (he : e ∈ S) (hup : ∃ c ∈ e, c.isUpper = true) :
    (∀ w : Str, lower w ≠ e) ∧
    remove_stopwords_from_text text S =
      remove_stopwords_from_text text (S.filter (fun x => !(x == e))) := by
  rcases hup with ⟨c, hc, hcu⟩
  have hne := lower_ne_of_upper e c hc hcu
  refine ⟨hne, ?_⟩
  rw [remove_stopwords_from_text, remove_stopwords_from_text,
    remove_stopwords_loop_eq_filter, remove_stopwords_loop_eq_filter]
  congr 1
  apply List.filter_congr
  intro w _
  have hmem : lower w ∈ S.filter (fun x => !(x == e)) ↔ lower w ∈ S := by
    rw [List.mem_filter]
    constructor
    · exact fun h => h.1
    · intro h
      refine ⟨h, ?_⟩
      simp [hne w]
  simp only [List.contains, List.elem_eq_mem, hmem]

/-- Witness for C10: the entry "The" (capital T) in the stopword set on the
text "The the"; no token can match it, and dropping it leaves the output
unchanged. -/
theorem C10_uppercase_stopwords_inert_witness :
    lower ['t', 'H', 'e'] ≠ ['T', 'h', 'e'] ∧
    remove_stopwords_from_text ['T', 'h', 'e', ' ', 't', 'h', 'e'] [['T', 'h', 'e']] =
      remove_stopwords_from_text ['T', 'h', 'e', ' ', 't', 'h', 'e']
        ([['T', 'h', 'e']].filter (fun x => !(x == ['T', 'h', 'e']))) := by
  have h := C10_uppercase_stopwords_inert ['T', 'h', 'e', ' ', 't', 'h', 'e']
    [['T', 'h', 'e']] ['T', 'h', 'e'] (by decide) (by decide)
  exact ⟨h.1 ['t', 'H', 'e'], h.2⟩

end ArticleAnalyzer
